import Mathlib

/-!
Verification of the precision-normalization and protective-bracket engine of
`hyperliquid_client.py`, shallowly embedded over exact rationals.

Python `Decimal.quantize(step, ROUND_DOWN)` truncates toward zero to a
multiple of `step`; `ROUND_UP` rounds away from zero.  Prices and sizes are
modelled as `ℚ`; `math.floor(math.log10 px)` is modelled by the exact
`Int.log 10 px`.
-/

namespace HyperClient

/-- Python `Decimal` `ROUND_DOWN`: truncation toward zero, as an integer
multiple count. -/
def truncToward0 (q : ℚ) : ℤ :=
  if 0 ≤ q then ⌊q⌋ else ⌈q⌉

/-- Python `Decimal` `ROUND_UP`: rounding away from zero. -/
def roundAway0 (q : ℚ) : ℤ :=
  if 0 ≤ q then ⌈q⌉ else ⌊q⌋

/-- Model of `_round_size(coin, raw_sz)`: quantize `raw_sz` to the lot step
`10^-d` (`d` = the coin's `szDecimals`) with `ROUND_DOWN`; if the result is
`≤ 0`, return one lot step instead. -/
def round_size (d : ℕ) (raw_sz : ℚ) : ℚ :=
  let step : ℚ := 1 / 10 ^ d
  let sz_dec : ℚ := (truncToward0 (raw_sz / step) : ℤ) * step
  if sz_dec ≤ 0 then step else sz_dec

/-- Model of `_price_step_sigfigs(px)`: step `10^(floor(log10 px) - 4)`,
clamped below by `10^-6`; for `px ≤ 0` the minimum step is returned
directly. -/
def price_step_sigfigs (px : ℚ) : ℚ :=
  if px ≤ 0 then 1 / 1000000
  else
    let exp : ℤ := Int.log 10 px
    let step : ℚ := (10 : ℚ) ^ (exp - 4)
    let min_step : ℚ := 1 / 1000000
    if step < min_step then min_step else step

/-- Model of `_round_price(px, rounding)`: quantize `px` to the
magnitude-derived step, `ROUND_UP` when `rounding == "up"`, `ROUND_DOWN`
otherwise. -/
def round_price (px : ℚ) (rounding : String) : ℚ :=
  let step := price_step_sigfigs px
  if rounding = "up" then (roundAway0 (px / step) : ℤ) * step
  else (truncToward0 (px / step) : ℤ) * step

/-- One entry of `user_state["assetPositions"][i]["position"]`: the coin
name, the signed size `szi` (`0` when the field is absent) and the entry
price (`0` when absent or null, matching `pos.get("entryPx", 0) or 0`). -/
structure RawPosition where
  coin : String
  szi : ℚ
  entryPx : ℚ
deriving Repr, DecidableEq

/-- Model of `has_position(coin)`: scan the asset positions for the first
entry whose coin matches and whose `szi` is non-zero; return it, else
nothing. -/
def has_position (state : List RawPosition) (coin : String) : Option RawPosition :=
  match state with
  | [] => none
  | p :: rest =>
      if p.coin = coin ∧ 0 < |p.szi| then some p
      else has_position rest coin

/-- One order descriptor of the `orders` list built by
`set_tp_sl_for_position`. -/
structure TriggerOrder where
  coin : String
  is_buy : Bool
  sz : ℚ
  limit_px : ℚ
  triggerPx : ℚ
  isMarket : Bool
  tpsl : String
  reduce_only : Bool
deriving Repr, DecidableEq

/-- Model of `set_tp_sl_for_position(coin, tp_pct, sl_pct)`.  The client
state is passed explicitly: `d` is the coin's `szDecimals`, `slippage` the
client slippage, `state` the asset positions, `mid` the mid price
`get_mid_price(coin)` would return.  Returns `none` when there is no
position (the Python function prints and returns `None`), otherwise the two
reduce-only trigger orders submitted via `bulk_orders`. -/
def set_tp_sl_for_position (d : ℕ) (slippage : ℚ) (state : List RawPosition)
    (mid : ℚ) (coin : String) (tp_pct sl_pct : ℚ) :
    Option (List TriggerOrder) :=
  match has_position state coin with
  | none => none
  | some pos =>
      let szi := pos.szi
      let sz_abs := round_size d |szi|
      let is_long : Bool := decide (0 < szi)
      let close_is_buy : Bool := if is_long then false else true
      let entry_px0 := pos.entryPx
      let entry_px := if entry_px0 ≤ 0 then mid else entry_px0
      let prices :=
        if is_long then
          let tp_trigger := entry_px * (1 + tp_pct)
          let sl_trigger := entry_px * (1 - sl_pct)
          let tp_limit := tp_trigger * (1 - slippage)
          let sl_limit := sl_trigger * (1 - slippage)
          (round_price tp_trigger "down", round_price sl_trigger "down",
           round_price tp_limit "down", round_price sl_limit "down")
        else
          let tp_trigger := entry_px * (1 - tp_pct)
          let sl_trigger := entry_px * (1 + sl_pct)
          let tp_limit := tp_trigger * (1 + slippage)
          let sl_limit := sl_trigger * (1 + slippage)
          (round_price tp_trigger "up", round_price sl_trigger "up",
           round_price tp_limit "up", round_price sl_limit "up")
      some [
        { coin := coin, is_buy := close_is_buy, sz := sz_abs,
          limit_px := prices.2.2.1, triggerPx := prices.1,
          isMarket := true, tpsl := "tp", reduce_only := true },
        { coin := coin, is_buy := close_is_buy, sz := sz_abs,
          limit_px := prices.2.2.2, triggerPx := prices.2.1,
          isMarket := true, tpsl := "sl", reduce_only := true } ]

/-- The mutable per-client state touched by `_get_sz_decimals`: the memoized
metadata snapshot (`self._meta`, reduced to its `universe` list of
`(name, szDecimals)` pairs), the per-coin decimals cache
(`self._sz_decimals_cache`) and a count of `info.meta()` network fetches. -/
structure ClientState where
  meta : Option (List (String × ℤ))
  szCache : List (String × ℤ)
  fetchCount : ℕ
deriving Repr, DecidableEq

/-- First-match lookup in an association list, as the Python `for` loop over
`meta["universe"]` does (and as `dict` lookup for the cache, whose keys are
unique because each coin is inserted at most once). -/
def lookupFirst : List (String × ℤ) → String → Option ℤ
  | [], _ => none
  | (n, v) :: rest, coin => if n = coin then some v else lookupFirst rest coin

/-- Model of `_load_meta()`: fetch the metadata snapshot once and memoize
it.  `snapshot` is what `self.info.meta()["universe"]` would return. -/
def load_meta (snapshot : List (String × ℤ)) (s : ClientState) :
    List (String × ℤ) × ClientState :=
  match s.meta with
  | some m => (m, s)
  | none => (snapshot, { s with meta := some snapshot, fetchCount := s.fetchCount + 1 })

/-- Model of `_get_sz_decimals(coin)`: serve from the cache when present;
otherwise load the metadata, scan for the coin, cache and return its
`szDecimals`, or raise `ValueError` (modelled as `Except.error`) when the
coin is absent.  The state is returned in every case because the Python
mutation of `self._meta` survives the raised exception. -/
def get_sz_decimals (snapshot : List (String × ℤ)) (coin : String)
    (s : ClientState) : Except String ℤ × ClientState :=
  match lookupFirst s.szCache coin with
  | some d => (Except.ok d, s)
  | none =>
      let ms1 := load_meta snapshot s
      match lookupFirst ms1.1 coin with
      | some d => (Except.ok d, { ms1.2 with szCache := (coin, d) :: ms1.2.szCache })
      | none => (Except.error coin, ms1.2)

/-! ## Helper lemmas -/

theorem truncToward0_of_nonneg {q : ℚ} (h : 0 ≤ q) : truncToward0 q = ⌊q⌋ :=
  if_pos h

theorem roundAway0_of_nonneg {q : ℚ} (h : 0 ≤ q) : roundAway0 q = ⌈q⌉ :=
  if_pos h

theorem round_size_exists (d : ℕ) {x : ℚ} (hx : 0 < x) :
    ∃ k : ℤ, 1 ≤ k ∧ round_size d x = (k : ℚ) / 10 ^ d ∧
      (x * 10 ^ d < 1 → k = 1) ∧ (1 ≤ x * 10 ^ d → k = ⌊x * 10 ^ d⌋) := by
  have hpow : (0 : ℚ) < 10 ^ d := by positivity
  have hdiv : x / (1 / 10 ^ d) = x * 10 ^ d := by
    rw [one_div, div_inv_eq_mul]
  have hq : (0 : ℚ) ≤ x * 10 ^ d := by positivity
  rcases lt_or_le (x * 10 ^ d) 1 with hlt | hge
  · refine ⟨1, le_refl 1, ?_, fun _ => rfl, fun h => absurd h (not_le.mpr hlt)⟩
    have hfl : ⌊x * 10 ^ d⌋ = 0 := Int.floor_eq_zero_iff.mpr ⟨hq, hlt⟩
    simp only [round_size, hdiv, truncToward0_of_nonneg hq, hfl]
    norm_num
  · have hfl : 1 ≤ ⌊x * 10 ^ d⌋ := Int.le_floor.mpr (by exact_mod_cast hge)
    refine ⟨⌊x * 10 ^ d⌋, hfl, ?_, fun h => absurd hge (not_le.mpr h), fun _ => rfl⟩
    have hposk : (0 : ℚ) < (⌊x * 10 ^ d⌋ : ℚ) * (1 / 10 ^ d) := by
      apply mul_pos _ (by positivity)
      exact_mod_cast lt_of_lt_of_le zero_lt_one hfl
    simp only [round_size, hdiv, truncToward0_of_nonneg hq, if_neg (not_le.mpr hposk)]
    rw [mul_one_div]

theorem price_step_sigfigs_pos (px : ℚ) : 0 < price_step_sigfigs px := by
  simp only [price_step_sigfigs]
  split_ifs
  · norm_num
  · norm_num
  · exact zpow_pos (by norm_num) _

/-- Uniqueness of the exponent bracketing used by `_price_step_sigfigs`. -/
theorem log10_eq_of {p : ℚ} {e : ℤ} (hp : 0 < p)
    (h1 : (10 : ℚ) ^ e ≤ p) (h2 : p < (10 : ℚ) ^ (e + 1)) :
    Int.log 10 p = e := by
  have hb : 1 < 10 := by norm_num
  have hle : e ≤ Int.log 10 p := by
    rw [← Int.zpow_le_iff_le_log hb hp]
    exact_mod_cast h1
  have hlt : Int.log 10 p < e + 1 := by
    rw [← Int.lt_zpow_iff_log_lt hb hp]
    exact_mod_cast h2
  omega

theorem truncToward0_nonpos {q : ℚ} (h : q ≤ 0) : truncToward0 q ≤ 0 := by
  unfold truncToward0
  split_ifs
  · calc ⌊q⌋ ≤ ⌊(0 : ℚ)⌋ := Int.floor_le_floor h
      _ = 0 := Int.floor_zero
  · exact Int.ceil_le.mpr (by exact_mod_cast h)

theorem roundAway0_nonpos {q : ℚ} (h : q ≤ 0) : roundAway0 q ≤ 0 := by
  unfold roundAway0
  split_ifs
  · exact Int.ceil_le.mpr (by exact_mod_cast h)
  · calc ⌊q⌋ ≤ ⌊(0 : ℚ)⌋ := Int.floor_le_floor h
      _ = 0 := Int.floor_zero

theorem has_position_eq_none {state : List RawPosition} {coin : String}
    (h : ∀ p ∈ state, p.coin = coin → p.szi = 0) :
    has_position state coin = none := by
  induction state with
  | nil => rfl
  | cons p rest ih =>
      have hc : ¬(p.coin = coin ∧ 0 < |p.szi|) := by
        rintro ⟨hcoin, habs⟩
        exact absurd (h p (List.mem_cons_self p rest) hcoin) (abs_pos.mp habs)
      simp only [has_position, if_neg hc]
      exact ih fun q hq => h q (List.mem_cons_of_mem p hq)

theorem has_position_szi_ne {state : List RawPosition} {coin : String}
    {pos : RawPosition} (h : has_position state coin = some pos) :
    pos.szi ≠ 0 := by
  induction state with
  | nil => exact absurd h (by simp [has_position])
  | cons p rest ih =>
      simp only [has_position] at h
      split_ifs at h with hc
      · obtain ⟨-, habs⟩ := hc
        cases h
        exact abs_pos.mp habs
      · exact ih h

theorem set_tp_sl_long_eq (d : ℕ) (slippage : ℚ) (state : List RawPosition)
    (mid : ℚ) (coin : String) (tp_pct sl_pct : ℚ) {pos : RawPosition}
    (hpos : has_position state coin = some pos) (hlong : 0 < pos.szi) :
    set_tp_sl_for_position d slippage state mid coin tp_pct sl_pct =
      some [
        { coin := coin, is_buy := false, sz := round_size d |pos.szi|,
          limit_px := round_price ((if pos.entryPx ≤ 0 then mid else pos.entryPx)
            * (1 + tp_pct) * (1 - slippage)) "down",
          triggerPx := round_price ((if pos.entryPx ≤ 0 then mid else pos.entryPx)
            * (1 + tp_pct)) "down",
          isMarket := true, tpsl := "tp", reduce_only := true },
        { coin := coin, is_buy := false, sz := round_size d |pos.szi|,
          limit_px := round_price ((if pos.entryPx ≤ 0 then mid else pos.entryPx)
            * (1 - sl_pct) * (1 - slippage)) "down",
          triggerPx := round_price ((if pos.entryPx ≤ 0 then mid else pos.entryPx)
            * (1 - sl_pct)) "down",
          isMarket := true, tpsl := "sl", reduce_only := true } ] := by
  simp only [set_tp_sl_for_position, hpos, decide_eq_true hlong, ite_true]

theorem set_tp_sl_short_eq (d : ℕ) (slippage : ℚ) (state : List RawPosition)
    (mid : ℚ) (coin : String) (tp_pct sl_pct : ℚ) {pos : RawPosition}
    (hpos : has_position state coin = some pos) (hshort : pos.szi < 0) :
    set_tp_sl_for_position d slippage state mid coin tp_pct sl_pct =
      some [
        { coin := coin, is_buy := true, sz := round_size d |pos.szi|,
          limit_px := round_price ((if pos.entryPx ≤ 0 then mid else pos.entryPx)
            * (1 - tp_pct) * (1 + slippage)) "up",
          triggerPx := round_price ((if pos.entryPx ≤ 0 then mid else pos.entryPx)
            * (1 - tp_pct)) "up",
          isMarket := true, tpsl := "tp", reduce_only := true },
        { coin := coin, is_buy := true, sz := round_size d |pos.szi|,
          limit_px := round_price ((if pos.entryPx ≤ 0 then mid else pos.entryPx)
            * (1 + sl_pct) * (1 + slippage)) "up",
          triggerPx := round_price ((if pos.entryPx ≤ 0 then mid else pos.entryPx)
            * (1 + sl_pct)) "up",
          isMarket := true, tpsl := "sl", reduce_only := true } ] := by
  have hnl : ¬ (0 < pos.szi) := not_lt.mpr hshort.le
  simp only [set_tp_sl_for_position, hpos, decide_eq_false hnl, Bool.false_eq_true,
    ite_false]

theorem entry_ref_eq (e m : ℚ) :
    (if e ≤ 0 then m else e) = (if 0 < e then e else m) := by
  rcases le_or_lt e 0 with h | h
  · rw [if_pos h, if_neg (not_lt.mpr h)]
  · rw [if_neg (not_le.mpr h), if_pos h]

/-! ## Claim theorems -/

/-- C2: for every `size_decimals` count `d` and raw size `x > 0`,
`_round_size` truncates `x` toward zero to a multiple of the lot step
`10^-d`; when the truncated value is `≤ 0` it returns exactly one lot step,
so the result is strictly positive and an exact multiple of `10^-d`; in
particular with `d = 3` and `x = 0.0002` the result is `0.001`. -/
theorem round_size_lot_invariant (d : ℕ) (x : ℚ) (hx : 0 < x) :
    0 < round_size d x ∧
    (∃ k : ℤ, round_size d x = (k : ℚ) / 10 ^ d) ∧
    (x < 1 / 10 ^ d → round_size d x = 1 / 10 ^ d) ∧
    (1 / 10 ^ d ≤ x → round_size d x = (⌊x * 10 ^ d⌋ : ℚ) / 10 ^ d) ∧
    round_size 3 (2 / 10000) = 1 / 1000 := by
  obtain ⟨k, hk1, hkeq, hsmall, hbig⟩ := round_size_exists d hx
  have hpow : (0 : ℚ) < 10 ^ d := by positivity
  refine ⟨?_, ⟨k, hkeq⟩, ?_, ?_, ?_⟩
  · rw [hkeq]
    apply div_pos _ hpow
    exact_mod_cast lt_of_lt_of_le zero_lt_one hk1
  · intro hlt
    have hx1 : x * 10 ^ d < 1 := (lt_div_iff₀ hpow).mp hlt
    rw [hkeq, hsmall hx1]
    norm_num
  · intro hle
    have hx1 : 1 ≤ x * 10 ^ d := (div_le_iff₀ hpow).mp hle
    rw [hkeq, hbig hx1]
  · obtain ⟨k2, hk21, hk2eq, hs2, _⟩ := round_size_exists 3 (show (0:ℚ) < 2 / 10000 by norm_num)
    have h1 : (2 : ℚ) / 10000 * 10 ^ 3 < 1 := by norm_num
    rw [hk2eq, hs2 h1]
    norm_num

/-- C8: `_round_size` is idempotent on positive raw sizes. -/
theorem round_size_idempotent (d : ℕ) (x : ℚ) (hx : 0 < x) :
    round_size d (round_size d x) = round_size d x := by
  obtain ⟨k, hk1, hkeq, _, _⟩ := round_size_exists d hx
  have hpow : (0 : ℚ) < 10 ^ d := by positivity
  have hkq : (0 : ℚ) < (k : ℚ) := by exact_mod_cast lt_of_lt_of_le zero_lt_one hk1
  have hdiv : ((k : ℚ) / 10 ^ d) / (1 / 10 ^ d) = (k : ℚ) := by
    rw [one_div, div_inv_eq_mul, div_mul_cancel₀ _ hpow.ne']
  have hres : (0 : ℚ) < (k : ℚ) * (1 / 10 ^ d) := by positivity
  rw [hkeq]
  simp only [round_size, hdiv, truncToward0_of_nonneg hkq.le, Int.floor_intCast]
  rw [if_neg (not_le.mpr hres), mul_one_div]

/-- C1: for every open position, with reference price `entry` the recorded
entry price when positive and otherwise the fetched mid price,
`set_tp_sl_for_position` computes for a long position the triggers
`entry * (1 ± pct)` and limits `trigger * (1 - slippage)`, all quantized
down, and for a short position the mirror image with limits multiplied by
`(1 + slippage)`, all quantized up. -/
theorem tp_sl_price_derivation (d : ℕ) (slippage : ℚ) (state : List RawPosition)
    (mid : ℚ) (coin : String) (tp_pct sl_pct : ℚ) {pos : RawPosition}
    (hpos : has_position state coin = some pos) :
    ∃ o1 o2 : TriggerOrder,
      set_tp_sl_for_position d slippage state mid coin tp_pct sl_pct = some [o1, o2] ∧
      (0 < pos.szi →
        o1.triggerPx = round_price ((if 0 < pos.entryPx then pos.entryPx else mid)
          * (1 + tp_pct)) "down" ∧
        o1.limit_px = round_price ((if 0 < pos.entryPx then pos.entryPx else mid)
          * (1 + tp_pct) * (1 - slippage)) "down" ∧
        o2.triggerPx = round_price ((if 0 < pos.entryPx then pos.entryPx else mid)
          * (1 - sl_pct)) "down" ∧
        o2.limit_px = round_price ((if 0 < pos.entryPx then pos.entryPx else mid)
          * (1 - sl_pct) * (1 - slippage)) "down") ∧
      (pos.szi < 0 →
        o1.triggerPx = round_price ((if 0 < pos.entryPx then pos.entryPx else mid)
          * (1 - tp_pct)) "up" ∧
        o1.limit_px = round_price ((if 0 < pos.entryPx then pos.entryPx else mid)
          * (1 - tp_pct) * (1 + slippage)) "up" ∧
        o2.triggerPx = round_price ((if 0 < pos.entryPx then pos.entryPx else mid)
          * (1 + sl_pct)) "up" ∧
        o2.limit_px = round_price ((if 0 < pos.entryPx then pos.entryPx else mid)
          * (1 + sl_pct) * (1 + slippage)) "up") := by
  have hne := has_position_szi_ne hpos
  rcases hne.lt_or_lt with hshort | hlong
  · rw [set_tp_sl_short_eq d slippage state mid coin tp_pct sl_pct hpos hshort]
    refine ⟨_, _, rfl, fun h => absurd h (not_lt.mpr hshort.le), fun _ => ?_⟩
    simp [entry_ref_eq]
  · rw [set_tp_sl_long_eq d slippage state mid coin tp_pct sl_pct hpos hlong]
    refine ⟨_, _, rfl, fun _ => ?_, fun h => absurd h (not_lt.mpr hlong.le)⟩
    simp [entry_ref_eq]

/-- C4: for every open position with `szi ≠ 0`, `set_tp_sl_for_position`
emits exactly two order descriptors, the first tagged `tp` and the second
`sl`; they share the same `is_buy` flag — `false` when `szi > 0`, `true`
when `szi < 0` — share the same size, the re-quantized absolute value of
`szi`, and both are reduce-only. -/
theorem tp_sl_pair_invariants (d : ℕ) (slippage : ℚ) (state : List RawPosition)
    (mid : ℚ) (coin : String) (tp_pct sl_pct : ℚ) {pos : RawPosition}
    (hpos : has_position state coin = some pos) :
    ∃ o1 o2 : TriggerOrder,
      set_tp_sl_for_position d slippage state mid coin tp_pct sl_pct = some [o1, o2] ∧
      o1.tpsl = "tp" ∧ o2.tpsl = "sl" ∧
      o1.is_buy = o2.is_buy ∧
      (0 < pos.szi → o1.is_buy = false) ∧
      (pos.szi < 0 → o1.is_buy = true) ∧
      o1.sz = round_size d |pos.szi| ∧ o2.sz = round_size d |pos.szi| ∧
      o1.reduce_only = true ∧ o2.reduce_only = true := by
  have hne := has_position_szi_ne hpos
  rcases hne.lt_or_lt with hshort | hlong
  · rw [set_tp_sl_short_eq d slippage state mid coin tp_pct sl_pct hpos hshort]
    exact ⟨_, _, rfl, rfl, rfl, rfl, fun h => absurd h (not_lt.mpr hshort.le),
      fun _ => rfl, rfl, rfl, rfl, rfl⟩
  · rw [set_tp_sl_long_eq d slippage state mid coin tp_pct sl_pct hpos hlong]
    exact ⟨_, _, rfl, rfl, rfl, rfl, fun _ => rfl,
      fun h => absurd h (not_lt.mpr hlong.le), rfl, rfl, rfl, rfl⟩

/-- C5: for every price `p > 0`, the down-quantized price is `≤ p`, the
up-quantized price is `≥ p`, and a price already on a step boundary does not
move under down quantization. -/
theorem round_price_directional (p : ℚ) (hp : 0 < p) :
    round_price p "down" ≤ p ∧ p ≤ round_price p "up" ∧
    ∀ k : ℤ, p = (k : ℚ) * price_step_sigfigs p → round_price p "down" = p := by
  set st := price_step_sigfigs p with hst
  have hstep : 0 < st := price_step_sigfigs_pos p
  have hq : (0 : ℚ) ≤ p / st := by positivity
  have hne : ¬(("down" : String) = "up") := by decide
  have hdown : round_price p "down" = (⌊p / st⌋ : ℚ) * st := by
    simp only [round_price, if_neg hne, ← hst, truncToward0_of_nonneg hq]
  have hup : round_price p "up" = (⌈p / st⌉ : ℚ) * st := by
    simp only [round_price, ← hst, roundAway0_of_nonneg hq, ite_true]
  refine ⟨?_, ?_, ?_⟩
  · rw [hdown]
    calc (⌊p / st⌋ : ℚ) * st ≤ p / st * st :=
          mul_le_mul_of_nonneg_right (Int.floor_le _) hstep.le
      _ = p := div_mul_cancel₀ p hstep.ne'
  · rw [hup]
    calc p = p / st * st := (div_mul_cancel₀ p hstep.ne').symm
      _ ≤ (⌈p / st⌉ : ℚ) * st :=
          mul_le_mul_of_nonneg_right (Int.le_ceil _) hstep.le
  · intro k hk
    have hqk : p / st = (k : ℚ) := by
      rw [hk, mul_div_cancel_right₀ _ hstep.ne']
    rw [hdown, hqk, Int.floor_intCast, ← hk]

/-- C6: for every price `p > 0`, the step of `_price_step_sigfigs` equals
`10^(floor(log10 p) - 4)` when that is at least `10^-6` and `10^-6`
otherwise; it is always a positive power of ten and at least `10^-6`; the
exponent `Int.log 10 p` is the floor of `log10 p`, witnessed by the
bracketing `10^e ≤ p < 10^(e+1)`. -/
theorem price_step_sigfigs_spec (p : ℚ) (hp : 0 < p) :
    price_step_sigfigs p =
      (if (1 : ℚ) / 1000000 ≤ (10 : ℚ) ^ (Int.log 10 p - 4)
        then (10 : ℚ) ^ (Int.log 10 p - 4) else 1 / 1000000) ∧
    (∃ k : ℤ, price_step_sigfigs p = (10 : ℚ) ^ k) ∧
    (1 : ℚ) / 1000000 ≤ price_step_sigfigs p ∧
    0 < price_step_sigfigs p ∧
    (10 : ℚ) ^ Int.log 10 p ≤ p ∧ p < (10 : ℚ) ^ (Int.log 10 p + 1) := by
  have hps : price_step_sigfigs p =
      if (10 : ℚ) ^ (Int.log 10 p - 4) < 1 / 1000000 then 1 / 1000000
      else (10 : ℚ) ^ (Int.log 10 p - 4) := by
    simp only [price_step_sigfigs, if_neg (not_le.mpr hp)]
  refine ⟨?_, ?_, ?_, price_step_sigfigs_pos p, ?_, ?_⟩
  · rw [hps]
    rcases lt_or_le ((10 : ℚ) ^ (Int.log 10 p - 4)) (1 / 1000000) with h | h
    · rw [if_pos h, if_neg (not_le.mpr h)]
    · rw [if_neg (not_lt.mpr h), if_pos h]
  · rw [hps]
    rcases lt_or_le ((10 : ℚ) ^ (Int.log 10 p - 4)) (1 / 1000000) with h | h
    · rw [if_pos h]
      exact ⟨-6, by norm_num⟩
    · rw [if_neg (not_lt.mpr h)]
      exact ⟨Int.log 10 p - 4, rfl⟩
  · rw [hps]
    rcases lt_or_le ((10 : ℚ) ^ (Int.log 10 p - 4)) (1 / 1000000) with h | h
    · rw [if_pos h]
    · rw [if_neg (not_lt.mpr h)]
      exact h
  · exact_mod_cast Int.zpow_log_le_self (by norm_num : 1 < 10) hp
  · exact_mod_cast Int.lt_zpow_succ_log_self (by norm_num : 1 < 10) p

/-- C3 counterexample: at `rawPrice = 0` with direction down, `_round_price`
returns `0`, not the minimum tick `10^-6`. -/
theorem round_price_zero_ne_min_tick : ¬ round_price 0 "down" = 1 / 1000000 := by
  have hne : ¬(("down" : String) = "up") := by decide
  have h : round_price 0 "down" = 0 := by
    simp only [round_price, if_neg hne]
    norm_num [price_step_sigfigs, truncToward0]
  rw [h]
  norm_num

/-- C3 (amended): for every `rawPrice ≤ 0` and every direction,
`_round_price` does not fail; the step falls back to the minimum tick
`10^-6` and the result is the input quantized at that step — a non-positive
multiple of `10^-6` (in particular `0` for input `0`), not the minimum tick
itself. -/
theorem round_price_nonpos_spec (p : ℚ) (hp : p ≤ 0) (s : String) :
    price_step_sigfigs p = 1 / 1000000 ∧
    ∃ k : ℤ, k ≤ 0 ∧ round_price p s = (k : ℚ) / 1000000 := by
  have hstep : price_step_sigfigs p = 1 / 1000000 := by
    simp only [price_step_sigfigs, if_pos hp]
  refine ⟨hstep, ?_⟩
  have hq : p / (1 / 1000000 : ℚ) = p * 1000000 := by
    rw [one_div, div_inv_eq_mul]
  have hqle : p * 1000000 ≤ 0 := by
    have := mul_le_mul_of_nonneg_right hp (by norm_num : (0 : ℚ) ≤ 1000000)
    simpa using this
  by_cases hs : s = "up"
  · refine ⟨roundAway0 (p * 1000000), roundAway0_nonpos hqle, ?_⟩
    simp only [round_price, hstep, hq, if_pos hs]
    rw [mul_one_div]
  · refine ⟨truncToward0 (p * 1000000), truncToward0_nonpos hqle, ?_⟩
    simp only [round_price, hstep, hq, if_neg hs]
    rw [mul_one_div]

/-- C7: when no position with non-zero signed size exists for the symbol
(no matching record, or matching records all with `szi = 0`),
`set_tp_sl_for_position` is a no-op: `has_position` reports nothing and no
orders are emitted. -/
theorem no_position_is_noop (d : ℕ) (slippage : ℚ) (state : List RawPosition)
    (mid : ℚ) (coin : String) (tp_pct sl_pct : ℚ)
    (h : ∀ p ∈ state, p.coin = coin → p.szi = 0) :
    has_position state coin = none ∧
    set_tp_sl_for_position d slippage state mid coin tp_pct sl_pct = none := by
  have hn := has_position_eq_none h
  exact ⟨hn, by simp only [set_tp_sl_for_position, hn]⟩

/-- C10: every direction string other than exactly `"up"` (misspellings,
other casings, arbitrary strings) silently behaves as `"down"` in
`_round_price`. -/
theorem round_price_default_direction (p : ℚ) (_hp : 0 < p) (s : String)
    (hs : s ≠ "up") : round_price p s = round_price p "down" := by
  simp only [round_price, if_neg hs, if_neg (by decide : ¬(("down" : String) = "up"))]

/-- C9: `_get_sz_decimals` fails (Python `ValueError`) when the symbol is
absent from the fetched snapshot, fetching the snapshot exactly once with no
retry; a found symbol is cached under the coin; a cached symbol is served
with no fetch and no state change; once the snapshot is memoized no call
fetches again, so the snapshot is requested at most once per missing symbol
per process lifetime. -/
theorem get_sz_decimals_cache_spec (snap : List (String × ℤ)) (coin : String)
    (s : ClientState) :
    (∀ dd, lookupFirst s.szCache coin = some dd →
      get_sz_decimals snap coin s = (Except.ok dd, s)) ∧
    (lookupFirst s.szCache coin = none → s.meta = none →
      lookupFirst snap coin = none →
      get_sz_decimals snap coin s =
        (Except.error coin,
          { meta := some snap, szCache := s.szCache,
            fetchCount := s.fetchCount + 1 })) ∧
    (∀ dd, lookupFirst s.szCache coin = none → s.meta = none →
      lookupFirst snap coin = some dd →
      get_sz_decimals snap coin s =
        (Except.ok dd,
          { meta := some snap, szCache := (coin, dd) :: s.szCache,
            fetchCount := s.fetchCount + 1 })) ∧
    (∀ m, s.meta = some m →
      (get_sz_decimals snap coin s).2.fetchCount = s.fetchCount) ∧
    (get_sz_decimals snap coin ((get_sz_decimals snap coin s).2)).2.fetchCount
      = (get_sz_decimals snap coin s).2.fetchCount := by
  refine ⟨?_, ?_, ?_, ?_, ?_⟩
  · intro dd hdd
    simp [get_sz_decimals, hdd]
  · intro hc hm hsnap
    simp [get_sz_decimals, hc, load_meta, hm, hsnap]
  · intro dd hc hm hsnap
    simp [get_sz_decimals, hc, load_meta, hm, hsnap]
  · intro m hm
    rcases hc : lookupFirst s.szCache coin with - | dd
    · rcases hsnap : lookupFirst m coin with - | dd2
      · simp [get_sz_decimals, hc, load_meta, hm, hsnap]
      · simp [get_sz_decimals, hc, load_meta, hm, hsnap]
    · simp [get_sz_decimals, hc]
  · rcases hc : lookupFirst s.szCache coin with - | dd
    · rcases hm : s.meta with - | m
      · rcases hsnap : lookupFirst snap coin with - | dd2
        · simp [get_sz_decimals, hc, load_meta, hm, hsnap, lookupFirst]
        · simp [get_sz_decimals, hc, load_meta, hm, hsnap, lookupFirst]
      · rcases hsnap : lookupFirst m coin with - | dd2
        · simp [get_sz_decimals, hc, load_meta, hm, hsnap, lookupFirst]
        · simp [get_sz_decimals, hc, load_meta, hm, hsnap, lookupFirst]
    · simp [get_sz_decimals, hc]

/-! ## Witnesses -/

theorem tp_sl_price_derivation_witness :
    ∃ o1 o2 : TriggerOrder,
      set_tp_sl_for_position 3 (1 / 100)
        [{ coin := "BTC", szi := 2, entryPx := 100 }] 0 "BTC" (1 / 100) (1 / 500)
        = some [o1, o2] := by
  have hBTC : has_position [{ coin := "BTC", szi := 2, entryPx := (100 : ℚ) }] "BTC"
      = some { coin := "BTC", szi := 2, entryPx := 100 } := by
    norm_num [has_position, abs_pos]
  obtain ⟨o1, o2, heq, -, -⟩ :=
    tp_sl_price_derivation 3 (1 / 100) [{ coin := "BTC", szi := 2, entryPx := 100 }]
      0 "BTC" (1 / 100) (1 / 500) hBTC
  exact ⟨o1, o2, heq⟩

theorem tp_sl_pair_invariants_witness :
    ∃ o1 o2 : TriggerOrder,
      set_tp_sl_for_position 3 (1 / 100)
        [{ coin := "BTC", szi := -2, entryPx := 100 }] 0 "BTC" (1 / 100) (1 / 500)
        = some [o1, o2] ∧ o1.tpsl = "tp" ∧ o2.tpsl = "sl" := by
  have hBTC : has_position [{ coin := "BTC", szi := -2, entryPx := (100 : ℚ) }] "BTC"
      = some { coin := "BTC", szi := -2, entryPx := 100 } := by
    norm_num [has_position, abs_pos]
  obtain ⟨o1, o2, heq, h1, h2, -⟩ :=
    tp_sl_pair_invariants 3 (1 / 100) [{ coin := "BTC", szi := -2, entryPx := 100 }]
      0 "BTC" (1 / 100) (1 / 500) hBTC
  exact ⟨o1, o2, heq, h1, h2⟩

theorem round_size_lot_invariant_witness :
    round_size 3 (2 / 10000) = 1 / 1000 :=
  (round_size_lot_invariant 3 (2 / 10000) (by norm_num)).2.2.2.2

theorem round_price_nonpos_spec_witness :
    price_step_sigfigs 0 = 1 / 1000000 ∧
    ∃ k : ℤ, k ≤ 0 ∧ round_price 0 "down" = (k : ℚ) / 1000000 :=
  round_price_nonpos_spec 0 (by norm_num) "down"

theorem round_price_directional_witness :
    round_price 101 "down" ≤ 101 ∧ (101 : ℚ) ≤ round_price 101 "up" := by
  obtain ⟨h1, h2, -⟩ := round_price_directional 101 (by norm_num)
  exact ⟨h1, h2⟩

theorem price_step_sigfigs_spec_witness :
    (1 : ℚ) / 1000000 ≤ price_step_sigfigs (3421 / 100000000) ∧
    0 < price_step_sigfigs (3421 / 100000000) := by
  obtain ⟨-, -, h3, h4, -⟩ := price_step_sigfigs_spec (3421 / 100000000) (by norm_num)
  exact ⟨h3, h4⟩

theorem no_position_is_noop_witness :
    has_position [{ coin := "BTC", szi := 0, entryPx := (100 : ℚ) }] "BTC" = none ∧
    set_tp_sl_for_position 3 (1 / 100)
      [{ coin := "BTC", szi := 0, entryPx := 100 }] 0 "BTC" (1 / 100) (1 / 500)
      = none := by
  refine no_position_is_noop 3 (1 / 100) _ 0 "BTC" (1 / 100) (1 / 500) ?_
  intro p hp _
  have hmem := List.mem_singleton.mp hp
  subst hmem
  rfl

theorem round_size_idempotent_witness :
    round_size 3 (round_size 3 (2 / 10000)) = round_size 3 (2 / 10000) :=
  round_size_idempotent 3 (2 / 10000) (by norm_num)

theorem get_sz_decimals_cache_spec_witness :
    get_sz_decimals [("BTC", 3)] "DOGE"
        { meta := none, szCache := [], fetchCount := 0 } =
      (Except.error "DOGE",
        { meta := some [("BTC", 3)], szCache := [], fetchCount := 1 }) := by
  have h := (get_sz_decimals_cache_spec [("BTC", 3)] "DOGE"
    { meta := none, szCache := [], fetchCount := 0 }).2.1
  exact h rfl rfl (by decide)

theorem round_price_default_direction_witness :
    round_price 1 "Down" = round_price 1 "down" :=
  round_price_default_direction 1 (by norm_num) "Down" (by decide)

end HyperClient
